import Mathlib

/-!
Shallow embedding of the Real-NVP notebook (`nf-jax-sap.ipynb`).

A batch row is a `List ℝ`; all numpy operations in the source act row-wise
(elementwise arithmetic, `axis=-1` sums, column slicing), so the coupling-layer
functions are embedded at the level of a single row.  A batch is a `List` of
rows and batch-level functions map over it.  Machine floats are modelled by
exact real arithmetic, as the spec's "exact arithmetic" contract directs.

The conditioner (`shift_and_log_scale_fn` in the source) is a function
argument, exactly as in the source, of type `P → List ℝ → List ℝ × List ℝ`
(parameters and the conditioning half in, `(shift, log_scale)` out).
-/

namespace NfJax

/-- Elementwise `np.exp` on a row. -/
noncomputable def vecExp (v : List ℝ) : List ℝ := v.map Real.exp

/-- Elementwise negation on a row (`-log_scale` in the source). -/
def vecNeg (v : List ℝ) : List ℝ := v.map (fun a => -a)

/-- Elementwise `+` on two rows (numpy elementwise addition). -/
def vecAdd (a b : List ℝ) : List ℝ := List.zipWith (fun x y => x + y) a b

/-- Elementwise `-` on two rows. -/
def vecSub (a b : List ℝ) : List ℝ := List.zipWith (fun x y => x - y) a b

/-- Elementwise `*` on two rows. -/
def vecMul (a b : List ℝ) : List ℝ := List.zipWith (fun x y => x * y) a b

/-- The conditioner type: `shift_and_log_scale_fn(net_params, x1)` returns the
pair `(shift, log_scale)`. -/
abbrev Conditioner (P : Type) : Type := P → List ℝ → List ℝ × List ℝ

/-- Embedding of `nvp_forward`: split the row at `d = D // 2`; the source's two
conditional swaps (`x2, x1 = x1, x2` before the transform and
`x1, y2 = y2, x1` after it) are expressed as conditional selection of the
halves and of the concatenation order, which is the same function. -/
noncomputable def nvp_forward {P : Type} (fn : Conditioner P) (net_params : P)
    (x : List ℝ) (fl : Bool) : List ℝ :=
  let d := x.length / 2
  let x1 := if fl then x.drop d else x.take d
  let x2 := if fl then x.take d else x.drop d
  let shift := (fn net_params x1).1
  let log_scale := (fn net_params x1).2
  let y2 := vecAdd (vecMul x2 (vecExp log_scale)) shift
  if fl then y2 ++ x1 else x1 ++ y2

/-- Embedding of `nvp_inverse`, with the same treatment of the two flip
swaps; returns the recovered row together with `log_scale`. -/
noncomputable def nvp_inverse {P : Type} (fn : Conditioner P) (net_params : P)
    (y : List ℝ) (fl : Bool) : List ℝ × List ℝ :=
  let d := y.length / 2
  let y1 := if fl then y.drop d else y.take d
  let y2 := if fl then y.take d else y.drop d
  let shift := (fn net_params y1).1
  let log_scale := (fn net_params y1).2
  let x2 := vecMul (vecSub y2 shift) (vecExp (vecNeg log_scale))
  (if fl then x2 ++ y1 else y1 ++ x2, log_scale)

/-- The conditioning (unchanged) half that `nvp_forward` feeds to the
conditioner: the first `D // 2` entries without flip, the rest with flip. -/
def condHalf (x : List ℝ) (fl : Bool) : List ℝ :=
  if fl then x.drop (x.length / 2) else x.take (x.length / 2)

section RoundTrip

lemma length_vecAdd (a b : List ℝ) : (vecAdd a b).length = min a.length b.length := by
  simp [vecAdd]

lemma length_vecMul (a b : List ℝ) : (vecMul a b).length = min a.length b.length := by
  simp [vecMul]

lemma length_vecExp (a : List ℝ) : (vecExp a).length = a.length := by
  simp [vecExp]

lemma length_vecNeg (a : List ℝ) : (vecNeg a).length = a.length := by
  simp [vecNeg]

/-- The elementwise affine transform of the coupling layer, inverted
elementwise, is the identity (exact arithmetic: `exp t * exp (-t) = 1`). -/
lemma invT_fwdT (a s l : List ℝ) (hs : s.length = a.length) (hl : l.length = a.length) :
    vecMul (vecSub (vecAdd (vecMul a (vecExp l)) s) s) (vecExp (vecNeg l)) = a := by
  induction a generalizing s l with
  | nil =>
    have hs' : s = [] := List.length_eq_zero.mp (by simpa using hs)
    have hl' : l = [] := List.length_eq_zero.mp (by simpa using hl)
    subst hs' hl'
    rfl
  | cons a₀ as ih =>
    cases s with
    | nil => simp at hs
    | cons s₀ ss =>
      cases l with
      | nil => simp at hl
      | cons l₀ ls =>
        have hs' : ss.length = as.length := by simpa using hs
        have hl' : ls.length = as.length := by simpa using hl
        simp only [vecExp, vecNeg, vecMul, vecAdd, vecSub, List.map_cons,
          List.zipWith_cons_cons]
        have htail := ih ss ls hs' hl'
        simp only [vecExp, vecNeg, vecMul, vecAdd, vecSub] at htail
        rw [htail]
        congr 1
        have : a₀ * Real.exp l₀ + s₀ - s₀ = a₀ * Real.exp l₀ := by ring
        rw [this, Real.exp_neg, mul_assoc,
          mul_inv_cancel₀ (Real.exp_ne_zero l₀), mul_one]

/-- `nvp_forward` at `flip = False`, with the `let`s and `if`s unfolded. -/
lemma nvp_forward_false_eq {P : Type} (fn : Conditioner P) (p : P) (x : List ℝ) :
    nvp_forward fn p x false =
      x.take (x.length / 2) ++
        vecAdd (vecMul (x.drop (x.length / 2)) (vecExp (fn p (x.take (x.length / 2))).2))
          (fn p (x.take (x.length / 2))).1 := rfl

/-- `nvp_forward` at `flip = True`, with the `let`s and `if`s unfolded. -/
lemma nvp_forward_true_eq {P : Type} (fn : Conditioner P) (p : P) (x : List ℝ) :
    nvp_forward fn p x true =
      vecAdd (vecMul (x.take (x.length / 2)) (vecExp (fn p (x.drop (x.length / 2))).2))
          (fn p (x.drop (x.length / 2))).1 ++ x.drop (x.length / 2) := rfl

/-- `nvp_inverse` at `flip = False` on a row split as `u ++ v` with equal
halves: the conditioner sees `u`, the second half is inverted elementwise. -/
lemma nvp_inverse_append_false {P : Type} (fn : Conditioner P) (p : P) (u v : List ℝ)
    (huv : u.length = v.length) :
    nvp_inverse fn p (u ++ v) false =
      (u ++ vecMul (vecSub v (fn p u).1) (vecExp (vecNeg (fn p u).2)), (fn p u).2) := by
  have hlen : (u ++ v).length / 2 = u.length := by
    rw [List.length_append]; omega
  show (_, _) = _
  rw [hlen, List.take_left, List.drop_left]
  simp

/-- `nvp_inverse` at `flip = True` on a row split as `v ++ u` with equal
halves: the conditioner sees `u` (the second half), the first half is
inverted elementwise. -/
lemma nvp_inverse_append_true {P : Type} (fn : Conditioner P) (p : P) (v u : List ℝ)
    (huv : v.length = u.length) :
    nvp_inverse fn p (v ++ u) true =
      (vecMul (vecSub v (fn p u).1) (vecExp (vecNeg (fn p u).2)) ++ u, (fn p u).2) := by
  have hlen : (v ++ u).length / 2 = v.length := by
    rw [List.length_append]; omega
  show (_, _) = _
  rw [hlen, List.take_left, List.drop_left]
  simp

lemma condHalf_false (x : List ℝ) : condHalf x false = x.take (x.length / 2) := rfl

lemma condHalf_true (x : List ℝ) : condHalf x true = x.drop (x.length / 2) := rfl

lemma take_append_eq {α : Type} {l₁ : List α} (l₂ : List α) {n : ℕ} (h : l₁.length = n) :
    (l₁ ++ l₂).take n = l₁ := by subst h; exact List.take_left l₁ l₂

lemma drop_append_eq {α : Type} {l₁ : List α} (l₂ : List α) {n : ℕ} (h : l₁.length = n) :
    (l₁ ++ l₂).drop n = l₂ := by subst h; exact List.drop_left l₁ l₂

/-- Length of the transformed half produced by the coupling transform, when the
conditioner outputs have the expected length `d`. -/
lemma length_transformed (x2 shift log_scale : List ℝ) {d : ℕ}
    (h2 : x2.length = d) (hsh : shift.length = d) (hls : log_scale.length = d) :
    (vecAdd (vecMul x2 (vecExp log_scale)) shift).length = d := by
  rw [length_vecAdd, length_vecMul, length_vecExp, h2, hsh, hls]
  omega

end RoundTrip

/-- C1: for every input row `x` of even dimension, every conditioner and
parameter set whose `(shift, log_scale)` outputs have the matching length
`D/2`, and either flip flag, `nvp_inverse` applied to `nvp_forward`'s result
returns the original `x` exactly (exact arithmetic). -/
theorem nvp_forward_inverse_roundtrip {P : Type} (fn : Conditioner P) (net_params : P)
    (x : List ℝ) (fl : Bool)
    (hx : x.length % 2 = 0)
    (hsh : (fn net_params (condHalf x fl)).1.length = x.length / 2)
    (hls : (fn net_params (condHalf x fl)).2.length = x.length / 2) :
    (nvp_inverse fn net_params (nvp_forward fn net_params x fl) fl).1 = x := by
  have htake : (x.take (x.length / 2)).length = x.length / 2 := by
    rw [List.length_take]; omega
  have hdrop : (x.drop (x.length / 2)).length = x.length / 2 := by
    rw [List.length_drop]; omega
  cases fl with
  | false =>
    rw [condHalf_false] at hsh hls
    rw [nvp_forward_false_eq,
      nvp_inverse_append_false fn net_params _ _
        (by rw [htake, length_transformed _ _ _ hdrop hsh hls]),
      invT_fwdT _ _ _ (by rw [hsh, hdrop]) (by rw [hls, hdrop])]
    exact List.take_append_drop _ x
  | true =>
    rw [condHalf_true] at hsh hls
    rw [nvp_forward_true_eq,
      nvp_inverse_append_true fn net_params _ _
        (by rw [length_transformed _ _ _ htake hsh hls, hdrop]),
      invT_fwdT _ _ _ (by rw [hsh, htake]) (by rw [hls, htake])]
    exact List.take_append_drop _ x

theorem nvp_forward_inverse_roundtrip_witness :
    (nvp_inverse (fun (_ : Unit) (_ : List ℝ) => ([(3 : ℝ)], [(0 : ℝ)])) ()
      (nvp_forward (fun (_ : Unit) (_ : List ℝ) => ([(3 : ℝ)], [(0 : ℝ)])) ()
        [1, 2] false) false).1 = [1, 2] :=
  nvp_forward_inverse_roundtrip (fun _ _ => ([3], [0])) () [1, 2] false
    (by rfl) (by rfl) (by rfl)

/-- C4: for `y` in the image of `nvp_forward`, the `log_scale` returned by
`nvp_inverse` on `y` equals the conditioner's `log_scale` on the same unchanged
half that the forward call used. -/
theorem nvp_inverse_log_scale_consistent {P : Type} (fn : Conditioner P) (net_params : P)
    (x : List ℝ) (fl : Bool)
    (hx : x.length % 2 = 0)
    (hsh : (fn net_params (condHalf x fl)).1.length = x.length / 2)
    (hls : (fn net_params (condHalf x fl)).2.length = x.length / 2) :
    (nvp_inverse fn net_params (nvp_forward fn net_params x fl) fl).2 =
      (fn net_params (condHalf x fl)).2 := by
  have htake : (x.take (x.length / 2)).length = x.length / 2 := by
    rw [List.length_take]; omega
  have hdrop : (x.drop (x.length / 2)).length = x.length / 2 := by
    rw [List.length_drop]; omega
  cases fl with
  | false =>
    rw [condHalf_false] at hsh hls ⊢
    rw [nvp_forward_false_eq,
      nvp_inverse_append_false fn net_params _ _
        (by rw [htake, length_transformed _ _ _ hdrop hsh hls])]
  | true =>
    rw [condHalf_true] at hsh hls ⊢
    rw [nvp_forward_true_eq,
      nvp_inverse_append_true fn net_params _ _
        (by rw [length_transformed _ _ _ htake hsh hls, hdrop])]

theorem nvp_inverse_log_scale_consistent_witness :
    (nvp_inverse (fun (_ : Unit) (_ : List ℝ) => ([(3 : ℝ)], [(0 : ℝ)])) ()
      (nvp_forward (fun (_ : Unit) (_ : List ℝ) => ([(3 : ℝ)], [(0 : ℝ)])) ()
        [1, 2] true) true).2 =
      ((fun (_ : Unit) (_ : List ℝ) => ([(3 : ℝ)], [(0 : ℝ)])) () (condHalf [1, 2] true)).2 :=
  nvp_inverse_log_scale_consistent (fun _ _ => ([3], [0])) () [1, 2] true
    (by rfl) (by rfl) (by rfl)

/-- C5: `nvp_forward` leaves the untransformed half unchanged: without flip the
first `D/2` output entries equal the first `D/2` entries of `x`; with flip the
last `D/2` output entries equal the last `D/2` entries of `x`. -/
theorem nvp_forward_untransformed_half {P : Type} (fn : Conditioner P) (net_params : P)
    (x : List ℝ)
    (hx : x.length % 2 = 0)
    (hsh : (fn net_params (condHalf x true)).1.length = x.length / 2)
    (hls : (fn net_params (condHalf x true)).2.length = x.length / 2) :
    (nvp_forward fn net_params x false).take (x.length / 2) = x.take (x.length / 2) ∧
    (nvp_forward fn net_params x true).drop (x.length / 2) = x.drop (x.length / 2) := by
  have htake : (x.take (x.length / 2)).length = x.length / 2 := by
    rw [List.length_take]; omega
  rw [condHalf_true] at hsh hls
  constructor
  · rw [nvp_forward_false_eq, take_append_eq _ htake]
  · rw [nvp_forward_true_eq,
      drop_append_eq _ (length_transformed _ _ _ htake hsh hls)]

theorem nvp_forward_untransformed_half_witness :
    (nvp_forward (fun (_ : Unit) (_ : List ℝ) => ([(3 : ℝ)], [(0 : ℝ)])) ()
        [1, 2] false).take 1 = [(1 : ℝ)] ∧
    (nvp_forward (fun (_ : Unit) (_ : List ℝ) => ([(3 : ℝ)], [(0 : ℝ)])) ()
        [1, 2] true).drop 1 = [(2 : ℝ)] :=
  nvp_forward_untransformed_half (fun _ _ => ([3], [0])) () [1, 2]
    (by rfl) (by rfl) (by rfl)

/-! ### Base distribution log-density and the flow chain -/

/-- Embedding of `log_prob_n01` at the level of one row: the numpy expression
`np.sum(-np.square(x)/2 - np.log(np.sqrt(2*np.pi)), axis=-1)` sums the
elementwise standard-normal log-density over the row.  (The source's unused
`eps=1e-15` default parameter is dropped.) -/
noncomputable def log_prob_n01 (x : List ℝ) : ℝ :=
  (x.map (fun a => -(a ^ 2) / 2 - Real.log (Real.sqrt (2 * Real.pi)))).sum

/-- `log_prob_n01` applied to a batch: one log-density per row. -/
noncomputable def log_prob_n01_batch (X : List (List ℝ)) : List ℝ :=
  X.map log_prob_n01

/-- Embedding of `log_prob_nvp`: invert one layer and add
`ildj = -sum(log_scale)` to the base log-density of the recovered row. -/
noncomputable def log_prob_nvp {P : Type} (fn : Conditioner P) (net_params : P)
    (base_log_prob_fn : List ℝ → ℝ) (y : List ℝ) (fl : Bool) : ℝ :=
  let r := nvp_inverse fn net_params y fl
  base_log_prob_fn r.1 + -(r.2.sum)

/-- Embedding of `make_log_prob_fn`: close `log_prob_nvp` over one layer's
parameters and config. -/
noncomputable def make_log_prob_fn {P : Type} (p : P) (log_prob_fn : List ℝ → ℝ)
    (config : Conditioner P × Bool) : List ℝ → ℝ :=
  fun x => log_prob_nvp config.1 p log_prob_fn x config.2

/-- Embedding of `log_prob_nvp_chain`: fold `make_log_prob_fn` over
`zip(ps, configs)` starting from the base log-density, then apply the
resulting closure to the query row. -/
noncomputable def log_prob_nvp_chain {P : Type} (ps : List P)
    (configs : List (Conditioner P × Bool)) (base_log_prob_fn : List ℝ → ℝ)
    (y : List ℝ) : ℝ :=
  ((ps.zip configs).foldl (fun acc pc => make_log_prob_fn pc.1 acc pc.2)
    base_log_prob_fn) y

/-- Reference evaluator that applies the layers' inverse maps in REVERSED
sequence order (the last layer of the list is inverted first), accumulating
`ildj = -sum(log_scale)` from every layer.  Returns the fully inverted row and
the total ildj. -/
noncomputable def invertChainRev {P : Type} :
    List (P × (Conditioner P × Bool)) → List ℝ → List ℝ × ℝ
  | [], y => (y, 0)
  | pc :: rest, y =>
      let s := invertChainRev rest y
      let r := nvp_inverse pc.2.1 pc.1 s.1 pc.2.2
      (r.1, s.2 + -(r.2.sum))

/-- Evaluator following the claim's words: apply each layer's inverse map in
SEQUENCE order (layer 0's inverse first, then layer 1's, and so on),
accumulating `ildj = -sum(log_scale)` from every layer. -/
noncomputable def invertChainSeq {P : Type} :
    List (P × (Conditioner P × Bool)) → List ℝ → List ℝ × ℝ
  | [], y => (y, 0)
  | pc :: rest, y =>
      let r := nvp_inverse pc.2.1 pc.1 y pc.2.2
      let s := invertChainSeq rest r.1
      (s.1, s.2 + -(r.2.sum))

lemma chain_foldl_eq {P : Type} (l : List (P × (Conditioner P × Bool)))
    (base : List ℝ → ℝ) (y : List ℝ) :
    (l.foldl (fun acc pc => make_log_prob_fn pc.1 acc pc.2) base) y =
      base (invertChainRev l y).1 + (invertChainRev l y).2 := by
  induction l generalizing base y with
  | nil => simp [invertChainRev]
  | cons pc rest ih =>
    rw [List.foldl_cons, ih]
    simp only [invertChainRev, make_log_prob_fn, log_prob_nvp]
    ring

/-- C2 (amended): `log_prob_nvp_chain` applies each layer's inverse map in
REVERSED sequence order — the nested closures put the last listed layer's
inverse outermost, so it acts on `y` first and layer 0's inverse acts last —
accumulating `ildj = -sum(log_scale)` from every layer, and returns the base
log-density of the fully inverted row plus the total ildj. -/
theorem log_prob_nvp_chain_reversed_inverse_order {P : Type} (ps : List P)
    (configs : List (Conditioner P × Bool)) (base_log_prob_fn : List ℝ → ℝ)
    (y : List ℝ) :
    log_prob_nvp_chain ps configs base_log_prob_fn y =
      base_log_prob_fn (invertChainRev (ps.zip configs) y).1 +
        (invertChainRev (ps.zip configs) y).2 :=
  chain_foldl_eq _ _ _

/-- A concrete conditioner used for counterexamples: identity shift, zero
log-scale. -/
noncomputable def idShiftCond : Conditioner Unit :=
  fun _ v => (v, v.map (fun _ => 0))

/-- Counterexample to C2 as stated: for a two-layer chain (layer 0 unflipped,
layer 1 flipped, both with identity-shift conditioners), evaluating the chain
at `y = [1, 1]` does NOT equal the result of applying the layers' inverse maps
in sequence order (layer 0's inverse first): the code gives `base [0, 1] = 0`
while the sequence-order formula gives `base [1, 0] = 1`. -/
theorem log_prob_nvp_chain_seq_order_cex :
    log_prob_nvp_chain [(), ()] [(idShiftCond, false), (idShiftCond, true)]
        (fun v => v.headD 0) [1, 1] ≠
      (fun v : List ℝ => v.headD 0)
          (invertChainSeq [((), (idShiftCond, false)), ((), (idShiftCond, true))]
            [1, 1]).1 +
        (invertChainSeq [((), (idShiftCond, false)), ((), (idShiftCond, true))]
            [1, 1]).2 := by
  have h1 : nvp_inverse idShiftCond () [1, 1] false = ([1, 0], [0]) := by
    simp [nvp_inverse, idShiftCond, vecMul, vecSub, vecExp, vecNeg,
      List.take, List.drop]
  have h2 : nvp_inverse idShiftCond () [1, 1] true = ([0, 1], [0]) := by
    simp [nvp_inverse, idShiftCond, vecMul, vecSub, vecExp, vecNeg,
      List.take, List.drop]
  have h3 : nvp_inverse idShiftCond () [0, 1] false = ([0, 1], [0]) := by
    simp [nvp_inverse, idShiftCond, vecMul, vecSub, vecExp, vecNeg,
      List.take, List.drop]
  have h4 : nvp_inverse idShiftCond () [1, 0] true = ([1, 0], [0]) := by
    simp [nvp_inverse, idShiftCond, vecMul, vecSub, vecExp, vecNeg,
      List.take, List.drop]
  have hcode : log_prob_nvp_chain [(), ()] [(idShiftCond, false), (idShiftCond, true)]
      (fun v : List ℝ => v.headD 0) [1, 1] = 0 := by
    simp only [log_prob_nvp_chain, List.zip_cons_cons, List.zip_nil_right,
      List.foldl_cons, List.foldl_nil, make_log_prob_fn, log_prob_nvp, h2, h3]
    norm_num
  have hseq : (fun v : List ℝ => v.headD 0)
          (invertChainSeq [((), (idShiftCond, false)), ((), (idShiftCond, true))]
            [1, 1]).1 +
        (invertChainSeq [((), (idShiftCond, false)), ((), (idShiftCond, true))]
            [1, 1]).2 = 1 := by
    simp only [invertChainSeq, h1, h4]
    norm_num
  rw [hcode, hseq]
  norm_num

/-- Helper: a mapped list sum written as a sum over index positions. -/
lemma list_sum_map_eq_fin_sum (f : ℝ → ℝ) (l : List ℝ) :
    (l.map f).sum = ∑ j : Fin l.length, f (l.get j) := by
  induction l with
  | nil => simp
  | cons a t ih =>
    simp only [List.map_cons, List.sum_cons, List.length_cons, Fin.sum_univ_succ, ih]
    rfl

/-- C9: `log_prob_n01` on a batch returns one log-density per row, each row's
value being the closed-form sum over dimensions `j` of
`-x_j^2 / 2 - log(sqrt(2*pi))`. -/
theorem log_prob_n01_closed_form (X : List (List ℝ)) :
    log_prob_n01_batch X =
      X.map (fun row => ∑ j : Fin row.length,
        (-(row.get j ^ 2) / 2 - Real.log (Real.sqrt (2 * Real.pi)))) := by
  have h : log_prob_n01 = fun row : List ℝ => ∑ j : Fin row.length,
      (-(row.get j ^ 2) / 2 - Real.log (Real.sqrt (2 * Real.pi))) :=
    funext fun row => list_sum_map_eq_fin_sum _ row
  unfold log_prob_n01_batch
  rw [h]

/-! ### Training loss -/

/-- Embedding of `jax.experimental.optimizers.l2_norm` as called by `loss`:
the square root of the sum of squared entries over all leaves of the parameter
pytree (modelled as one flat leaf vector per layer).  Note: this is the L2
norm itself, not its square. -/
noncomputable def l2_norm (params : List (List ℝ)) : ℝ :=
  Real.sqrt ((params.map (fun leaf => (leaf.map (fun a => a * a)).sum)).sum)

/-- `np.mean` of a vector (sum divided by length). -/
noncomputable def npMean (l : List ℝ) : ℝ := l.sum / l.length

/-- Embedding of `loss`: negative mean over the batch of the chain
log-probability, plus `hp.beta * optimizers.l2_norm(params)`.  The layer
configs `cs` and the coefficient `beta` are the globals the source closure
captures, passed here as arguments; a layer's parameters are one flat leaf
vector. -/
noncomputable def loss (cs : List (Conditioner (List ℝ) × Bool)) (beta : ℝ)
    (params : List (List ℝ)) (batch : List (List ℝ)) : ℝ :=
  -(npMean (batch.map (fun row => log_prob_nvp_chain params cs log_prob_n01 row))) +
    beta * l2_norm params

/-- C3 (amended): the training loss equals the negative mean of the chain
log-probability of the batch plus `beta` times the UNSQUARED L2 norm of the
parameters, i.e. `beta * sqrt(Σ pᵢ²)` over all flattened parameter entries —
not `beta * Σ pᵢ²`. -/
theorem loss_weight_decay_unsquared (cs : List (Conditioner (List ℝ) × Bool))
    (beta : ℝ) (params : List (List ℝ)) (batch : List (List ℝ)) :
    loss cs beta params batch =
      -((batch.map (fun row => log_prob_nvp_chain params cs log_prob_n01 row)).sum /
          (batch.length : ℝ)) +
        beta * Real.sqrt (((params.flatten).map (fun a => a ^ 2)).sum) := by
  have hjoin : (((params.flatten).map (fun a => a ^ 2)).sum) =
      ((params.map (fun leaf => (leaf.map (fun a => a * a)).sum)).sum) := by
    induction params with
    | nil => simp
    | cons leaf rest ih =>
      simp only [List.flatten_cons, List.map_append, List.sum_append, List.map_cons,
        List.sum_cons, ih]
      congr 1
      rw [show (fun a : ℝ => a ^ 2) = fun a : ℝ => a * a from funext fun a => by ring]
  unfold loss npMean l2_norm
  rw [hjoin, List.length_map]

/-- Counterexample to C3 as stated: with no layers, a single parameter entry
`2`, `beta = 1`, and batch `[[0]]`, the code's loss uses
`l2_norm [[2]] = sqrt 4 = 2`, while the claimed squared penalty is `4`. -/
theorem loss_squared_norm_cex :
    loss [] 1 [[2]] [[0]] ≠
      -(npMean (([[(0 : ℝ)]] : List (List ℝ)).map
          (fun row => log_prob_nvp_chain [[(2 : ℝ)]] [] log_prob_n01 row))) +
        1 * ((([[(2 : ℝ)]] : List (List ℝ)).flatten).map (fun a => a ^ 2)).sum := by
  have hsq : ((([[(2 : ℝ)]] : List (List ℝ)).flatten).map (fun a => a ^ 2)).sum = 4 := by
    norm_num [List.flatten]
  have hl2 : l2_norm [[(2 : ℝ)]] = 2 := by
    have h4 : ((([[(2 : ℝ)]] : List (List ℝ)).map
        (fun leaf => (leaf.map (fun a => a * a)).sum)).sum) = 4 := by norm_num
    unfold l2_norm
    rw [h4, show (4 : ℝ) = 2 ^ 2 by norm_num, Real.sqrt_sq (by norm_num : (0 : ℝ) ≤ 2)]
  unfold loss
  rw [hl2, hsq]
  intro h
  have h2 := add_left_cancel h
  norm_num at h2

/-! ### Chain construction -/

/-- Embedding of `init_nvp`: the stax network construction and its random
initializer are abstracted as `net_init`; the source reads the notebook's
global `rng = random.PRNGKey(0)`, which is never split or reassigned, so every
call receives the same key and `net_init` is evaluated at that same key. -/
def init_nvp {K NetP Cond : Type} (net_init : K → NetP)
    (shift_and_log_scale_fn : Cond) (rng : K) : NetP × Cond :=
  (net_init rng, shift_and_log_scale_fn)

/-- The loop of `init_nvp_chain`, parameterized by the current flip flag:
each iteration calls `init_nvp`, appends `(p, (f, flip))`, and toggles the
flag. -/
def init_nvp_chain_from {K NetP Cond : Type} (net_init : K → NetP)
    (shift_and_log_scale_fn : Cond) (rng : K) :
    ℕ → Bool → List NetP × List (Cond × Bool)
  | 0, _ => ([], [])
  | n + 1, fl =>
      let pf := init_nvp net_init shift_and_log_scale_fn rng
      let rest := init_nvp_chain_from net_init shift_and_log_scale_fn rng n (!fl)
      (pf.1 :: rest.1, (pf.2, fl) :: rest.2)

/-- Embedding of `init_nvp_chain`: the flip flag starts at `False`. -/
def init_nvp_chain {K NetP Cond : Type} (net_init : K → NetP)
    (shift_and_log_scale_fn : Cond) (rng : K) (n : ℕ) :
    List NetP × List (Cond × Bool) :=
  init_nvp_chain_from net_init shift_and_log_scale_fn rng n false

lemma init_nvp_chain_from_length {K NetP Cond : Type} (net_init : K → NetP)
    (f : Cond) (rng : K) :
    ∀ (n : ℕ) (b : Bool),
      (init_nvp_chain_from net_init f rng n b).2.length = n := by
  intro n
  induction n with
  | zero => intro b; rfl
  | succ m ih =>
    intro b
    simp only [init_nvp_chain_from, List.length_cons, ih]

lemma init_nvp_chain_from_flip {K NetP Cond : Type} (net_init : K → NetP)
    (f : Cond) (rng : K) :
    ∀ (n : ℕ) (b : Bool) (i : ℕ), i < n →
      ((init_nvp_chain_from net_init f rng n b).2.getD i (f, true)).2 =
        xor (decide (i % 2 = 1)) b := by
  intro n
  induction n with
  | zero => intro b i h; omega
  | succ m ih =>
    intro b i h
    cases i with
    | zero => simp [init_nvp_chain_from]
    | succ j =>
      have hj : j < m := by omega
      have hrest := ih (!b) j hj
      simp only [init_nvp_chain_from, List.getD_cons_succ]
      rw [hrest]
      by_cases hp : j % 2 = 1
      · have hp2 : (j + 1) % 2 = 0 := by omega
        simp [hp, hp2]
      · have hp0 : j % 2 = 0 := by omega
        have hp2 : (j + 1) % 2 = 1 := by omega
        simp [hp0, hp2]

/-- C6: `init_nvp_chain n` returns `n` configs whose flip flags alternate
starting with no flip: the flag at index `i` is `False` for even `i` and
`True` for odd `i`. -/
theorem init_nvp_chain_flips_alternate {K NetP Cond : Type} (net_init : K → NetP)
    (f : Cond) (rng : K) (n : ℕ) :
    (init_nvp_chain net_init f rng n).2.length = n ∧
    ∀ i, i < n →
      ((init_nvp_chain net_init f rng n).2.getD i (f, true)).2 = decide (i % 2 = 1) := by
  refine ⟨init_nvp_chain_from_length net_init f rng n false, ?_⟩
  intro i h
  have hflag := init_nvp_chain_from_flip net_init f rng n false i h
  simpa [init_nvp_chain] using hflag

theorem init_nvp_chain_flips_alternate_witness :
    (init_nvp_chain (fun _ : Unit => ()) () () 3).2.length = 3 ∧
    ((init_nvp_chain (fun _ : Unit => ()) () () 3).2.getD 1 ((), true)).2 =
      decide (1 % 2 = 1) :=
  ⟨(init_nvp_chain_flips_alternate (fun _ => ()) () () 3).1,
   (init_nvp_chain_flips_alternate (fun _ => ()) () () 3).2 1 (by decide)⟩

/-- Counterexample to C7 as stated: `init_nvp_chain 0` does not reject the
zero-length configuration — it returns the empty chain `([], [])`. -/
theorem init_nvp_chain_zero_cex :
    init_nvp_chain (fun _ : Unit => ()) () () 0 =
      (([] : List Unit), ([] : List (Unit × Bool))) := rfl

/-- C7 (amended): `init_nvp_chain` performs no configuration validation; for
chain length zero it returns an empty parameter list and an empty config list
rather than raising. -/
theorem init_nvp_chain_zero_returns_empty {K NetP Cond : Type} (net_init : K → NetP)
    (f : Cond) (rng : K) :
    init_nvp_chain net_init f rng 0 = ([], []) := rfl

lemma init_nvp_chain_from_params {K NetP Cond : Type} (net_init : K → NetP)
    (f : Cond) (rng : K) :
    ∀ (n : ℕ) (b : Bool),
      (init_nvp_chain_from net_init f rng n b).1 = List.replicate n (net_init rng) := by
  intro n
  induction n with
  | zero => intro b; rfl
  | succ m ih =>
    intro b
    simp only [init_nvp_chain_from, List.replicate_succ, ih, init_nvp]

/-- C10: every call of `init_nvp` reads the same fixed global rng key, so all
`n` per-layer parameter sets returned by `init_nvp_chain n` equal the single
`init_nvp` result — in particular they are pairwise equal at construction. -/
theorem init_nvp_chain_params_identical {K NetP Cond : Type} (net_init : K → NetP)
    (f : Cond) (rng : K) (n : ℕ) :
    (init_nvp_chain net_init f rng n).1 =
      List.replicate n (init_nvp net_init f rng).1 ∧
    ∀ i j, i < n → j < n →
      (init_nvp_chain net_init f rng n).1.getD i (net_init rng) =
        (init_nvp_chain net_init f rng n).1.getD j (net_init rng) := by
  have hrep : (init_nvp_chain net_init f rng n).1 =
      List.replicate n (init_nvp net_init f rng).1 :=
    init_nvp_chain_from_params net_init f rng n false
  refine ⟨hrep, ?_⟩
  have hr : ∀ k, k < n →
      (List.replicate n (init_nvp net_init f rng).1).getD k (net_init rng) =
        (init_nvp net_init f rng).1 := by
    intro k hk
    rw [List.getD_eq_getElem?_getD, List.getElem?_replicate, if_pos hk]
    rfl
  intro i j hi hj
  rw [hrep, hr i hi, hr j hj]

theorem init_nvp_chain_params_identical_witness :
    (init_nvp_chain (fun _ : Unit => ()) () () 2).1 = List.replicate 2 () ∧
    (init_nvp_chain (fun _ : Unit => ()) () () 2).1.getD 0 () =
      (init_nvp_chain (fun _ : Unit => ()) () () 2).1.getD 1 () :=
  ⟨(init_nvp_chain_params_identical (fun _ => ()) () () 2).1,
   (init_nvp_chain_params_identical (fun _ => ()) () () 2).2 0 1 (by decide) (by decide)⟩

/-! ### Absence of shape validation (C8) -/

/-- C8 (amended): the coupling transform performs no dimensionality
validation.  For an odd-dimension row it splits unevenly at `d = D // 2`
(conditioning half of size `d`, transformed half of size `D - d`) and
proceeds, returning the reassembled full-length row; no error is raised. -/
theorem nvp_forward_odd_proceeds {P : Type} (fn : Conditioner P) (net_params : P)
    (x : List ℝ)
    (hodd : x.length % 2 = 1)
    (hsh : (fn net_params (x.take (x.length / 2))).1.length = x.length - x.length / 2)
    (hls : (fn net_params (x.take (x.length / 2))).2.length = x.length - x.length / 2) :
    nvp_forward fn net_params x false =
      x.take (x.length / 2) ++
        vecAdd (vecMul (x.drop (x.length / 2))
            (vecExp (fn net_params (x.take (x.length / 2))).2))
          (fn net_params (x.take (x.length / 2))).1 ∧
    (nvp_forward fn net_params x false).length = x.length := by
  refine ⟨nvp_forward_false_eq _ _ _, ?_⟩
  rw [nvp_forward_false_eq, List.length_append,
    length_transformed _ _ _ (List.length_drop _ _) hsh hls, List.length_take]
  omega

theorem nvp_forward_odd_proceeds_witness :
    nvp_forward (fun (_ : Unit) (_ : List ℝ) => (([5, 7] : List ℝ), ([0, 0] : List ℝ)))
        () [1, 2, 3] false =
      ([1, 2, 3] : List ℝ).take 1 ++
        vecAdd (vecMul (([1, 2, 3] : List ℝ).drop 1) (vecExp [0, 0])) [5, 7] ∧
    (nvp_forward (fun (_ : Unit) (_ : List ℝ) => (([5, 7] : List ℝ), ([0, 0] : List ℝ)))
        () [1, 2, 3] false).length = 3 :=
  nvp_forward_odd_proceeds (fun _ _ => ([5, 7], [0, 0])) () [1, 2, 3]
    (by rfl) (by rfl) (by rfl)

/-- Counterexample to C8 as stated: on the odd-dimension row `[1, 2, 3]` (with
a conditioner producing shapes matching the uneven second half), `nvp_forward`
raises nothing and returns the concrete row `[1, 7, 10]`, having transformed
the uneven second half `[2, 3]` with shift `[5, 7]` and zero log-scale. -/
theorem nvp_forward_odd_input_value_cex :
    nvp_forward (fun (_ : Unit) (_ : List ℝ) => (([5, 7] : List ℝ), ([0, 0] : List ℝ)))
      () [1, 2, 3] false = [1, 7, 10] := by
  rw [nvp_forward_false_eq]
  norm_num [vecAdd, vecMul, vecExp, Real.exp_zero, List.take, List.drop]

end NfJax
